import Mathlib

/-!
Shallow embedding of the dependency-graph job scheduler (JobId.cpp) and the
thread-pool executor (task_execution.cpp) of the Concurrency-codes repository,
with theorems checking the natural-language specification against the code.
-/

namespace ConcQueue

/--
Embedding of the templated ConcurrentQueue of JobId.cpp (lines 11-51):
a FIFO list (front at the head) plus the atomic finished flag.
-/
structure ConcurrentQueue (α : Type) where
  q : List α
  finished : Bool

/--
JobId.cpp lines 20-26: push locks the mutex and unconditionally enqueues the
value at the back; the finished flag is never consulted.
-/
def ConcurrentQueue.push {α : Type} (c : ConcurrentQueue α) (v : α) :
    ConcurrentQueue α :=
  { c with q := c.q ++ [v] }

/--
JobId.cpp lines 29-39: pop waits on the condition variable until the queue is
non-empty or finished is set (the wait predicate), then returns false exactly
when finished is set and the queue is empty, and otherwise moves the front
element out.  A call on an empty, unfinished queue blocks forever inside the
wait; that case is rendered as none here and is guarded by the wait predicate
in the theorems.
-/
def ConcurrentQueue.pop {α : Type} (c : ConcurrentQueue α) :
    Option (α × ConcurrentQueue α) :=
  if c.finished && c.q.isEmpty then none
  else
    match c.q with
    | [] => none
    | v :: rest => some (v, { c with q := rest })

/--
JobId.cpp lines 42-45: set the finished flag and wake all waiting threads.
-/
def ConcurrentQueue.set_finished {α : Type} (c : ConcurrentQueue α) :
    ConcurrentQueue α :=
  { c with finished := true }

end ConcQueue

namespace TaskExec

/--
Outcome of running an opaque callable: a normal return, or a thrown error
carrying a message.
-/
inductive JobOutcome : Type
  | ok : JobOutcome
  | err : String → JobOutcome
deriving DecidableEq

/--
task_execution.cpp lines 73-78: the task call is wrapped in try/catch with an
empty handler, so both a normal return and a thrown error leave nothing behind
for the caller to observe.
-/
def runTaskCaught (o : JobOutcome) : Unit :=
  match o with
  | .ok => ()
  | .err _ => ()

/--
State of the Worker thread pool of task_execution.cpp: the pending task
queue, the stop flag, and the two atomic counters.
-/
structure Pool where
  tasks : List JobOutcome
  stop : Bool
  submittedCount : Nat
  completedCount : Nat
deriving DecidableEq

/-- task_execution.cpp line 12: a freshly constructed pool. -/
def Pool.new : Pool :=
  { tasks := [], stop := false, submittedCount := 0, completedCount := 0 }

/--
task_execution.cpp lines 28-35: submitWork appends the task to the queue and
increments submittedCount.
-/
def submitWork (p : Pool) (t : JobOutcome) : Pool :=
  { p with tasks := p.tasks ++ [t], submittedCount := p.submittedCount + 1 }

/-- Submitting a batch of tasks in order. -/
def submitAll (p : Pool) (ts : List JobOutcome) : Pool :=
  ts.foldl submitWork p

/--
One iteration of workerLoop (task_execution.cpp lines 60-88) in the case
where a task is available: pop the front task, run it under the swallowing
try/catch, and increment completedCount - the increment happens whether or
not the task threw.
-/
def workerIter (p : Pool) : Pool :=
  match p.tasks with
  | [] => p
  | t :: rest =>
      let _u : Unit := runTaskCaught t
      { p with tasks := rest, completedCount := p.completedCount + 1 }

/-- Iterating the worker loop a fixed number of times. -/
def workerSteps : Nat → Pool → Pool
  | 0, p => p
  | n + 1, p => workerSteps n (workerIter p)

/--
task_execution.cpp lines 38-43: the predicate under which blockUntilComplete
stops waiting and returns to the caller.
-/
def canUnblock (p : Pool) : Prop :=
  p.completedCount = p.submittedCount

end TaskExec

namespace Pipeline

open TaskExec (JobOutcome)

/--
JobId.cpp line 126: the worker calls doWork with no try/catch around it, so
processing the sequence of jobs a worker pops ends at the first throwing job
with the error escaping the worker function (terminating the thread); the
ids of jobs completed so far are returned only when every callable returns
normally, and the escaping error carries no job id.
-/
def workerRunJobs : List (Int × JobOutcome) → Except String (List Int)
  | [] => .ok []
  | (i, o) :: rest =>
      match o with
      | .ok => (workerRunJobs rest).map (fun l => i :: l)
      | .err m => .error m

/--
JobId.cpp line 114: execute, after joining the workers, unconditionally
prints this message; the blocking run has no other outcome channel and no
failure branch.
-/
def executeCompletionMessage : String :=
  "Pipeline completed successfully!"

/--
Construction input of PipelineManager (JobId.cpp lines 74-92): the job ids in
list order and the dependency edges (from, to) in list order.  The callables
are irrelevant to the scheduling bookkeeping, and a JobId.cpp job cannot
report failure (see workerRunJobs), so jobs are reduced to their ids.
-/
structure Sched where
  jobs : List Int
  deps : List (Int × Int)

/--
JobId.cpp lines 81-82: adjacency is built by appending e.second to
adj[e.first] for each edge in list order, so the dependents of u are the
targets of the edges leaving u, in edge-list order.
-/
def adjOf (deps : List (Int × Int)) (u : Int) : List Int :=
  match deps with
  | [] => []
  | p :: rest => if p.1 = u then p.2 :: adjOf rest u else adjOf rest u

/--
The remaining-dependency count a job v would carry once exactly the jobs in
fin have finished: the number of edges into v whose source is not in fin.
At fin = [] this is the indegree map built by JobId.cpp line 83.
-/
def pendIndeg (deps : List (Int × Int)) (fin : List Int) (v : Int) : Nat :=
  match deps with
  | [] => 0
  | p :: rest => (if p.2 = v ∧ p.1 ∉ fin then 1 else 0) + pendIndeg rest fin v

/--
JobId.cpp lines 86-89: the seeding loop pushes, in job-list order, every job
whose constructed indegree is zero.
-/
def seedReady (deps : List (Int × Int)) : List Int → List Int
  | [] => []
  | j :: rest =>
      if pendIndeg deps [] j = 0 then j :: seedReady deps rest
      else seedReady deps rest

/--
Scheduler bookkeeping state: the indegree map (C++ int values), the ready
queue contents (front first), the jobs popped but not yet finished, the
finished jobs in completion order (the done counter of JobId.cpp is its
length), and the running total of ready-queue pushes.
-/
structure St where
  indeg : Int → Int
  ready : List Int
  inflight : List Int
  finished : List Int
  pushes : Nat

/-- The state produced by the PipelineManager constructor (lines 74-92). -/
def initSt (s : Sched) : St :=
  { indeg := fun v => (pendIndeg s.deps [] v : Int)
  , ready := seedReady s.deps s.jobs
  , inflight := []
  , finished := []
  , pushes := (seedReady s.deps s.jobs).length }

/--
JobId.cpp lines 136-141: the critical section run when a job finishes walks
the job's adjacency list in order, decrements each dependent's indegree, and
pushes (in order) each dependent whose count just reached zero; the result is
the updated indegree map and the list of newly pushed ids.
-/
def processDeps (indeg : Int → Int) : List Int → (Int → Int) × List Int
  | [] => (indeg, [])
  | d :: rest =>
      let indeg1 : Int → Int := fun x => if x = d then indeg x - 1 else indeg x
      let pr := processDeps indeg1 rest
      if indeg1 d = 0 then (pr.1, d :: pr.2) else (pr.1, pr.2)

/--
Worker step, pop side (JobId.cpp lines 120-126): the front ready job is
popped and starts executing on some worker.
-/
def startJob (st : St) (j : Int) (rest : List Int) : St :=
  { st with ready := rest, inflight := j :: st.inflight }

/--
Worker step, completion side (JobId.cpp lines 126-142): the job's callable
returns, done is incremented, and under the indegree mutex the dependents are
decremented and the newly ready ones appended to the ready queue.
-/
def finishJob (s : Sched) (st : St) (j : Int) : St :=
  let pr := processDeps st.indeg (adjOf s.deps j)
  { indeg := pr.1
  , ready := st.ready ++ pr.2
  , inflight := st.inflight.erase j
  , finished := st.finished ++ [j]
  , pushes := st.pushes + pr.2.length }

/--
Interleaving semantics of the worker pool: at any moment either some worker
pops the front ready job, or some worker completes an in-flight job.  Each
constructor is one critical section of JobId.cpp.
-/
inductive Step (s : Sched) : St → St → Prop
  | start (st : St) (j : Int) (rest : List Int) (h : st.ready = j :: rest) :
      Step s st (startJob st j rest)
  | finish (st : St) (j : Int) (h : j ∈ st.inflight) :
      Step s st (finishJob s st j)

/-- The states reachable during a run of PipelineManager on input s. -/
inductive Reach (s : Sched) : St → Prop
  | init : Reach s (initSt s)
  | step {st st1 : St} : Reach s st → Step s st st1 → Reach s st1

/--
Well-formed construction input: job ids are distinct and every edge endpoint
names a listed job.
-/
def WellFormed (s : Sched) : Prop :=
  s.jobs.Nodup ∧ ∀ p ∈ s.deps, p.1 ∈ s.jobs ∧ p.2 ∈ s.jobs

instance instDecWellFormed (s : Sched) : Decidable (WellFormed s) := by
  unfold WellFormed
  infer_instance

/--
Acyclicity of the edge list, expressed by a rank function that strictly
increases along every edge (equivalent, for a finite edge list, to the
absence of a directed cycle).
-/
def Acyclic (s : Sched) : Prop :=
  ∃ rank : Int → Nat, ∀ p ∈ s.deps, rank p.1 < rank p.2

/--
JobId.cpp lines 95-100: execute spawns hardware_concurrency() worker threads,
or 4 when that value is 0, unconditionally - no construction input can keep
the worker count at zero.
-/
def spawnedWorkers (hardwareConcurrency : Nat) : Nat :=
  if hardwareConcurrency = 0 then 4 else hardwareConcurrency

/-- All ids a state holds in the ready, in-flight, finished stages. -/
def allIds (st : St) : List Int :=
  st.ready ++ st.inflight ++ st.finished

/--
The inductive invariant of the scheduler run: the staged ids are distinct
listed jobs, the push counter counts the staged ids, the indegree map counts
the edges whose source has not finished, a zero-indegree job has been staged,
and every staged job has all its prerequisites finished.
-/
structure Inv (s : Sched) (st : St) : Prop where
  nodup : (allIds st).Nodup
  sub : ∀ j ∈ allIds st, j ∈ s.jobs
  pushesEq : st.pushes = (allIds st).length
  indegEq : ∀ v, st.indeg v = (pendIndeg s.deps st.finished v : Int)
  zeroIn : ∀ j ∈ s.jobs, st.indeg j = 0 → j ∈ allIds st
  predsDone : ∀ v ∈ allIds st, ∀ p ∈ s.deps, p.2 = v → p.1 ∈ st.finished

/-- The diamond example of JobId.cpp main (lines 150-165). -/
def diamond : Sched :=
  { jobs := [1, 2, 3, 4], deps := [(1, 2), (1, 3), (2, 4), (3, 4)] }

/-- A cyclic construction input. -/
def cyc2 : Sched := { jobs := [1, 2], deps := [(1, 2), (2, 1)] }

/-- A construction input whose edge source 2 is not a listed job. -/
def unk1 : Sched := { jobs := [1], deps := [(2, 1)] }

end Pipeline

namespace ConcQueue

theorem cq_pop_empty {α : Type} (c : ConcurrentQueue α) (h : c.q = []) :
    c.pop = none := by
  simp [ConcurrentQueue.pop, h]

theorem cq_pop_cons {α : Type} (c : ConcurrentQueue α) (v : α) (rest : List α)
    (h : c.q = v :: rest) : c.pop = some (v, { c with q := rest }) := by
  simp [ConcurrentQueue.pop, h]

/--
Claim C6 counterexample: pushing the id 5 onto a ready queue that has already
been marked finished is not a no-op - the queue contents change from empty to
a one-element backlog and a subsequent pop delivers 5 to the consumer, because
push (JobId.cpp lines 20-26) never consults the finished flag and pop
(lines 29-39) drains the backlog even when finished is set.
-/
theorem claim_C6_counterexample :
    (ConcurrentQueue.push { q := [], finished := true } (5 : Int)).q = [5] ∧
    (ConcurrentQueue.push { q := [], finished := true } (5 : Int)).pop =
      some (5, { q := [], finished := true }) := by
  constructor
  · rfl
  · rfl

/--
Claim C6 amended: push after the queue has been marked finished still
enqueues the id - the contents grow by that id at the back, the finished flag
is unchanged, and if the backlog was empty the next pop delivers exactly the
late-pushed id to a consumer.
-/
theorem claim_C6 {α : Type} (c : ConcurrentQueue α) (v : α)
    (hfin : c.finished = true) :
    (c.push v).q = c.q ++ [v] ∧ (c.push v).finished = true ∧
    (c.q = [] → (c.push v).pop = some (v, c)) := by
  obtain ⟨cq, cf⟩ := c
  simp only at hfin
  subst hfin
  refine ⟨rfl, rfl, ?_⟩
  intro hq
  simp only at hq
  subst hq
  rfl

/--
Claim C6 amended, witness at a concrete input: the finished empty Int queue
and the id 7.
-/
theorem claim_C6_witness :
    ((ConcurrentQueue.mk ([] : List Int) true).push 7).q = [] ++ [7] ∧
    ((ConcurrentQueue.mk ([] : List Int) true).push 7).finished = true ∧
    (([] : List Int) = [] →
      ((ConcurrentQueue.mk ([] : List Int) true).push 7).pop =
        some (7, ConcurrentQueue.mk [] true)) :=
  claim_C6 (ConcurrentQueue.mk ([] : List Int) true) 7 rfl

/--
Claim C7: under the wait predicate of JobId.cpp line 31 (queue non-empty or
finished), pop returns no-more-work exactly when the queue has been marked
finished and is empty, and whenever at least one item remains - finished or
not - pop returns the front item and leaves the rest, so the backlog is
drained before consumers are told to stop.
-/
theorem claim_C7 {α : Type} (c : ConcurrentQueue α)
    (hwait : c.q ≠ [] ∨ c.finished = true) :
    (c.pop = none ↔ (c.finished = true ∧ c.q = [])) ∧
    (∀ v rest, c.q = v :: rest → c.pop = some (v, { c with q := rest })) := by
  constructor
  · cases hq : c.q with
    | nil =>
        have hfin : c.finished = true := by
          rcases hwait with h | h
          · exact absurd hq h
          · exact h
        simp [cq_pop_empty c hq, hq, hfin]
    | cons v rest =>
        simp [cq_pop_cons c v rest hq, hq]
  · intro v rest hq
    exact cq_pop_cons c v rest hq

/--
Claim C7 witness: a finished queue still holding the single item 3 satisfies
the wait predicate, its pop is not none, and pop returns the item 3.
-/
theorem claim_C7_witness :
    ((ConcurrentQueue.mk ([3] : List Int) true).pop = none ↔
      ((ConcurrentQueue.mk ([3] : List Int) true).finished = true ∧
        (ConcurrentQueue.mk ([3] : List Int) true).q = [])) ∧
    (∀ v rest, (ConcurrentQueue.mk ([3] : List Int) true).q = v :: rest →
      (ConcurrentQueue.mk ([3] : List Int) true).pop =
        some (v, ConcurrentQueue.mk rest true)) :=
  claim_C7 (ConcurrentQueue.mk ([3] : List Int) true) (Or.inr rfl)

/--
Claim C8: marking the queue finished is idempotent - a second (or any later)
set_finished leaves the queue state exactly as after the first, and therefore
every subsequent pop behaves identically in both cases.
-/
theorem claim_C8 {α : Type} (c : ConcurrentQueue α) :
    c.set_finished.set_finished = c.set_finished ∧
    c.set_finished.set_finished.pop = c.set_finished.pop := by
  exact ⟨rfl, rfl⟩

end ConcQueue

namespace TaskExec

theorem submitAll_spec (ts : List JobOutcome) : ∀ p : Pool,
    submitAll p ts =
      { p with tasks := p.tasks ++ ts,
               submittedCount := p.submittedCount + ts.length } := by
  induction ts with
  | nil => intro p; simp [submitAll]
  | cons t rest ih =>
      intro p
      show submitAll (submitWork p t) rest = _
      rw [ih (submitWork p t)]
      simp [submitWork, Nat.add_assoc, Nat.add_comm 1 rest.length]

theorem workerSteps_drain (ts : List JobOutcome) :
    ∀ stop sub comp, workerSteps ts.length (Pool.mk ts stop sub comp) =
      Pool.mk [] stop sub (comp + ts.length) := by
  induction ts with
  | nil => intro stop sub comp; simp [workerSteps]
  | cons t rest ih =>
      intro stop sub comp
      show workerSteps rest.length (workerIter (Pool.mk (t :: rest) stop sub comp)) = _
      have : workerIter (Pool.mk (t :: rest) stop sub comp) =
          Pool.mk rest stop sub (comp + 1) := rfl
      rw [this, ih]
      simp [Nat.add_assoc, Nat.add_comm 1 rest.length]

/--
Claim C9: in the thread-pool variant (task_execution.cpp), a submitted task
whose callable throws is still counted as completed.  A worker iteration on a
throwing front task produces exactly the state produced on a succeeding one,
incrementing completedCount by one either way (the catch-all swallows the
error); consequently draining any submitted batch makes completedCount equal
submittedCount, so blockUntilComplete returns normally, and the final pool
state is identical to that of an all-successful batch - no error is ever
observable by the caller.
-/
theorem claim_C9 (ts : List JobOutcome) (stop : Bool) (sub comp : Nat)
    (m : String) (rest : List JobOutcome) :
    workerIter (Pool.mk (JobOutcome.err m :: rest) stop sub comp) =
      workerIter (Pool.mk (JobOutcome.ok :: rest) stop sub comp) ∧
    (workerIter (Pool.mk (JobOutcome.err m :: rest) stop sub comp)).completedCount
      = comp + 1 ∧
    canUnblock (workerSteps ts.length (submitAll Pool.new ts)) ∧
    workerSteps ts.length (submitAll Pool.new ts) =
      workerSteps ts.length
        (submitAll Pool.new (ts.map (fun _ => JobOutcome.ok))) := by
  refine ⟨rfl, rfl, ?_, ?_⟩
  · rw [submitAll_spec ts Pool.new]
    have h1 := workerSteps_drain ts Pool.new.stop
      (Pool.new.submittedCount + ts.length) Pool.new.completedCount
    simp only [Pool.new, List.nil_append] at h1 ⊢
    rw [h1]
    simp [canUnblock]
  · rw [submitAll_spec ts Pool.new,
        submitAll_spec (ts.map (fun _ => JobOutcome.ok)) Pool.new]
    have h1 := workerSteps_drain ts Pool.new.stop
      (Pool.new.submittedCount + ts.length) Pool.new.completedCount
    have h2 := workerSteps_drain (ts.map (fun _ => JobOutcome.ok)) Pool.new.stop
      (Pool.new.submittedCount + (ts.map (fun _ => JobOutcome.ok)).length)
      Pool.new.completedCount
    rw [List.length_map] at h2
    simp only [Pool.new, List.nil_append, List.length_map] at h1 h2 ⊢
    rw [h1, h2]

end TaskExec

namespace Pipeline

/--
Claim C1 counterexample: with the job sequence (1, ok), (2, throws boom),
(3, ok), the error escapes the worker boundary of JobId.cpp - workerRunJobs
evaluates to the bare propagated error, not to a caught-and-latched success -
because line 126 runs doWork with no try/catch; and the blocking run has no
failure outcome at all: its only report is the unconditional success print of
line 114.  So the error is not caught at the worker boundary, there is no
Failure Latch, and no failure outcome carrying the job id is ever returned.
-/
theorem claim_C1_counterexample :
    workerRunJobs [(1, .ok), (2, .err "boom"), (3, .ok)] = .error "boom" ∧
    executeCompletionMessage = "Pipeline completed successfully!" := by
  exact ⟨rfl, rfl⟩

/--
Claim C1 amended: in the DAG scheduler (JobId.cpp) an error signalled by a
job's callable is not caught at the worker boundary: the first error in the
worker's job sequence escapes the worker function (crashing the worker
thread), the ids of already-completed jobs are lost, no Failure Latch exists,
and the escaping error carries no job id; the blocking run's only report is an
unconditional success message.  In the thread-pool variant
(task_execution.cpp) the error is caught at the worker boundary but silently
discarded, indistinguishable from a normal return.
-/
theorem claim_C1 (pre : List (Int × TaskExec.JobOutcome)) (i : Int)
    (m : String) (post : List (Int × TaskExec.JobOutcome))
    (hpre : ∀ p ∈ pre, p.2 = TaskExec.JobOutcome.ok) :
    workerRunJobs (pre ++ (i, TaskExec.JobOutcome.err m) :: post) = .error m ∧
    TaskExec.runTaskCaught (TaskExec.JobOutcome.err m) =
      TaskExec.runTaskCaught TaskExec.JobOutcome.ok ∧
    executeCompletionMessage = "Pipeline completed successfully!" := by
  refine ⟨?_, rfl, rfl⟩
  induction pre with
  | nil => rfl
  | cons p rest ih =>
      have hp : p.2 = TaskExec.JobOutcome.ok := hpre p (by simp)
      have hrest : ∀ q ∈ rest, q.2 = TaskExec.JobOutcome.ok := by
        intro q hq; exact hpre q (by simp [hq])
      obtain ⟨pi, po⟩ := p
      simp only at hp
      subst hp
      show workerRunJobs ((pi, TaskExec.JobOutcome.ok) ::
        (rest ++ (i, TaskExec.JobOutcome.err m) :: post)) = .error m
      rw [workerRunJobs, ih hrest]
      rfl

/--
Claim C1 amended, witness: one successful job (7, ok) precedes the throwing
job (2, boom); the theorem applies with the all-ok side condition discharged
by evaluation.
-/
theorem claim_C1_witness :
    workerRunJobs ([((7 : Int), TaskExec.JobOutcome.ok)] ++
      (2, TaskExec.JobOutcome.err "boom") :: []) = .error "boom" ∧
    TaskExec.runTaskCaught (TaskExec.JobOutcome.err "boom") =
      TaskExec.runTaskCaught TaskExec.JobOutcome.ok ∧
    executeCompletionMessage = "Pipeline completed successfully!" :=
  claim_C1 [((7 : Int), TaskExec.JobOutcome.ok)] 2 "boom" []
    (by intro p hp; simp at hp; rw [hp])

end Pipeline

namespace Pipeline

theorem count_adjOf (u v : Int) : ∀ deps : List (Int × Int),
    List.count v (adjOf deps u) = List.count (u, v) deps := by
  intro deps
  induction deps with
  | nil => rfl
  | cons p rest ih =>
      obtain ⟨p1, p2⟩ := p
      by_cases hp : p1 = u
      · subst hp
        by_cases hv : p2 = v
        · subst hv
          simp [adjOf, List.count_cons, ih]
        · simp [adjOf, List.count_cons, ih, hv, Prod.mk.injEq]
      · simp [adjOf, hp, List.count_cons, ih, Prod.mk.injEq]

theorem mem_adjOf (u v : Int) (deps : List (Int × Int)) :
    v ∈ adjOf deps u ↔ (u, v) ∈ deps := by
  rw [← List.count_pos_iff, ← List.count_pos_iff, count_adjOf]

theorem pendIndeg_eq_zero (fin : List Int) (v : Int) :
    ∀ deps : List (Int × Int),
    pendIndeg deps fin v = 0 ↔ ∀ p ∈ deps, p.2 = v → p.1 ∈ fin := by
  intro deps
  induction deps with
  | nil => simp [pendIndeg]
  | cons p rest ih =>
      simp only [pendIndeg, List.mem_cons]
      constructor
      · intro h
        intro q hq hqv
        rcases hq with hq | hq
        · subst hq
          by_contra hnotin
          rw [if_pos ⟨hqv, hnotin⟩] at h
          omega
        · have hrest : pendIndeg rest fin v = 0 := by omega
          exact (ih.mp hrest) q hq hqv
      · intro h
        have h1 : (if p.2 = v ∧ p.1 ∉ fin then 1 else 0) = 0 := by
          by_cases hc : p.2 = v ∧ p.1 ∉ fin
          · exact absurd (h p (Or.inl rfl) hc.1) hc.2
          · simp [hc]
        have h2 : pendIndeg rest fin v = 0 :=
          ih.mpr (fun q hq hqv => h q (Or.inr hq) hqv)
        omega

theorem pendIndeg_append (v j : Int) (fin : List Int) (hj : j ∉ fin) :
    ∀ deps : List (Int × Int),
    pendIndeg deps fin v =
      pendIndeg deps (fin ++ [j]) v + List.count (j, v) deps := by
  intro deps
  induction deps with
  | nil => rfl
  | cons p rest ih =>
      obtain ⟨p1, p2⟩ := p
      simp only [pendIndeg, List.count_cons, beq_iff_eq, Prod.mk.injEq,
        List.mem_append, List.mem_singleton, not_or]
      split_ifs <;> simp_all <;> omega

end Pipeline

namespace Pipeline

theorem processDeps_cons (ind : Int → Int) (d : Int) (rest : List Int) :
    processDeps ind (d :: rest) =
      (if ind d - 1 = 0 then
        ((processDeps (fun x => if x = d then ind x - 1 else ind x) rest).1,
         d :: (processDeps (fun x => if x = d then ind x - 1 else ind x) rest).2)
      else processDeps (fun x => if x = d then ind x - 1 else ind x) rest) := by
  simp only [processDeps]
  split_ifs <;> simp_all

theorem processDeps_fst (v : Int) : ∀ (l : List Int) (ind : Int → Int),
    (processDeps ind l).1 v = ind v - List.count v l := by
  intro l
  induction l with
  | nil => intro ind; simp [processDeps]
  | cons d rest ih =>
      intro ind
      rw [processDeps_cons]
      by_cases hv : v = d
      · subst hv
        by_cases h : ind v - 1 = 0 <;>
          simp [h, ih, List.count_cons] <;> omega
      · by_cases h : ind d - 1 = 0 <;>
          simp [h, ih, List.count_cons, hv] <;> omega

theorem processDeps_count (v : Int) : ∀ (l : List Int) (ind : Int → Int),
    List.count v (processDeps ind l).2 =
      if 1 ≤ ind v ∧ ind v ≤ (List.count v l : Int) then 1 else 0 := by
  intro l
  induction l with
  | nil =>
      intro ind
      simp only [processDeps, List.count_nil]
      split_ifs with h <;> omega
  | cons d rest ih =>
      intro ind
      rw [processDeps_cons]
      by_cases hv : v = d
      · subst hv
        by_cases h : ind v - 1 = 0 <;>
          simp [h, ih, List.count_cons] <;>
          first
          | (split_ifs <;> omega)
          | omega
      · by_cases h : ind d - 1 = 0 <;>
          simp [h, ih, List.count_cons, hv] <;>
          first
          | (split_ifs <;> omega)
          | omega

theorem mem_processDeps (v : Int) (l : List Int) (ind : Int → Int) :
    v ∈ (processDeps ind l).2 ↔
      (1 ≤ ind v ∧ ind v ≤ (List.count v l : Int)) := by
  rw [← List.count_pos_iff, processDeps_count]
  split_ifs with h <;> simp [h]

theorem nodup_processDeps (l : List Int) (ind : Int → Int) :
    (processDeps ind l).2.Nodup := by
  rw [List.nodup_iff_count_le_one]
  intro a
  rw [processDeps_count]
  split_ifs <;> omega

theorem mem_seedReady (deps : List (Int × Int)) (v : Int) :
    ∀ jobs : List Int,
    v ∈ seedReady deps jobs ↔ v ∈ jobs ∧ pendIndeg deps [] v = 0 := by
  intro jobs
  induction jobs with
  | nil => simp [seedReady]
  | cons j rest ih =>
      simp only [seedReady]
      split_ifs with h
      · simp only [List.mem_cons, ih]
        constructor
        · rintro (rfl | ⟨hm, hz⟩)
          · exact ⟨Or.inl rfl, h⟩
          · exact ⟨Or.inr hm, hz⟩
        · rintro ⟨rfl | hm, hz⟩
          · exact Or.inl rfl
          · exact Or.inr ⟨hm, hz⟩
      · simp only [List.mem_cons, ih]
        constructor
        · rintro ⟨hm, hz⟩
          exact ⟨Or.inr hm, hz⟩
        · rintro ⟨rfl | hm, hz⟩
          · exact absurd hz h
          · exact ⟨hm, hz⟩

theorem nodup_seedReady (deps : List (Int × Int)) :
    ∀ jobs : List Int, jobs.Nodup → (seedReady deps jobs).Nodup := by
  intro jobs
  induction jobs with
  | nil => intro h; simp [seedReady]
  | cons j rest ih =>
      intro h
      rw [List.nodup_cons] at h
      simp only [seedReady]
      split_ifs with hz
      · rw [List.nodup_cons]
        refine ⟨?_, ih h.2⟩
        intro hmem
        exact h.1 ((mem_seedReady deps j rest).mp hmem).1
      · exact ih h.2

end Pipeline

namespace Pipeline

theorem allIds_perm_start (st : St) (j : Int) (rest : List Int)
    (h : st.ready = j :: rest) :
    List.Perm (allIds (startJob st j rest)) (allIds st) := by
  simp only [allIds, startJob, h, List.cons_append, List.append_assoc]
  exact List.perm_middle

theorem inv_start (s : Sched) (st : St) (j : Int) (rest : List Int)
    (h : st.ready = j :: rest) (inv : Inv s st) :
    Inv s (startJob st j rest) := by
  have hp := allIds_perm_start st j rest h
  constructor
  · exact hp.symm.nodup inv.nodup
  · intro x hx
    exact inv.sub x (hp.mem_iff.mp hx)
  · show st.pushes = (allIds (startJob st j rest)).length
    rw [hp.length_eq]
    exact inv.pushesEq
  · intro v
    exact inv.indegEq v
  · intro x hx hz
    exact hp.mem_iff.mpr (inv.zeroIn x hx hz)
  · intro v hv p hpd hpt
    exact inv.predsDone v (hp.mem_iff.mp hv) p hpd hpt

theorem inv_finish (s : Sched) (st : St) (j : Int) (hj : j ∈ st.inflight)
    (hwf : WellFormed s) (inv : Inv s st) : Inv s (finishJob s st j) := by
  obtain ⟨hjobsnd, hends⟩ := hwf
  have hnod : ((st.ready ++ st.inflight) ++ st.finished).Nodup := inv.nodup
  rw [List.nodup_append, List.nodup_append] at hnod
  obtain ⟨⟨hndr, hndi, hdisri⟩, hndf, hdisrif⟩ := hnod
  have hjfin : j ∉ st.finished := fun hm =>
    hdisrif (List.mem_append.mpr (Or.inr hj)) hm
  have hindeg1 : ∀ v, (finishJob s st j).indeg v =
      (pendIndeg s.deps (st.finished ++ [j]) v : Int) := by
    intro v
    show (processDeps st.indeg (adjOf s.deps j)).1 v = _
    rw [processDeps_fst, inv.indegEq v, count_adjOf,
        pendIndeg_append v j st.finished hjfin s.deps]
    push_cast
    ring
  have hnewnotold : ∀ v ∈ (processDeps st.indeg (adjOf s.deps j)).2,
      v ∉ allIds st := by
    intro v hv hvold
    have h1 : 1 ≤ st.indeg v :=
      ((mem_processDeps v (adjOf s.deps j) st.indeg).mp hv).1
    have h0 : pendIndeg s.deps st.finished v = 0 :=
      (pendIndeg_eq_zero st.finished v s.deps).mpr
        (fun p hp hpt => inv.predsDone v hvold p hp hpt)
    rw [inv.indegEq v, h0] at h1
    norm_num at h1
  have hnewjobs : ∀ v ∈ (processDeps st.indeg (adjOf s.deps j)).2,
      v ∈ s.jobs := by
    intro v hv
    have hcnt := (mem_processDeps v (adjOf s.deps j) st.indeg).mp hv
    have hc1 : 1 ≤ (List.count v (adjOf s.deps j) : Int) :=
      le_trans hcnt.1 hcnt.2
    have hvl : v ∈ adjOf s.deps j := by
      rw [← List.count_pos_iff]
      omega
    rw [mem_adjOf] at hvl
    exact (hends (j, v) hvl).2
  have hperm : List.Perm (allIds (finishJob s st j))
      ((processDeps st.indeg (adjOf s.deps j)).2 ++ allIds st) := by
    rw [List.perm_iff_count]
    intro a
    simp only [allIds, finishJob, List.count_append, List.count_erase]
    have hcj : 0 < List.count j st.inflight := List.count_pos_iff.mpr hj
    by_cases ha : j = a
    · subst ha
      simp [List.count_cons]
      try omega
    · simp [List.count_cons, ha, Ne.symm ha]
      try omega
  have hnodup2 : ((processDeps st.indeg (adjOf s.deps j)).2 ++ allIds st).Nodup := by
    rw [List.nodup_append]
    exact ⟨nodup_processDeps (adjOf s.deps j) st.indeg, inv.nodup,
      fun a hav hold => hnewnotold a hav hold⟩
  constructor
  · exact hperm.symm.nodup hnodup2
  · intro x hx
    rcases List.mem_append.mp (hperm.mem_iff.mp hx) with hx2 | hxold
    · exact hnewjobs x hx2
    · exact inv.sub x hxold
  · show st.pushes + (processDeps st.indeg (adjOf s.deps j)).2.length =
      (allIds (finishJob s st j)).length
    rw [hperm.length_eq, List.length_append, inv.pushesEq]
    omega
  · intro v
    exact hindeg1 v
  · intro x hx hz
    by_cases hold : st.indeg x = 0
    · exact hperm.mem_iff.mpr (List.mem_append.mpr (Or.inr (inv.zeroIn x hx hold)))
    · have hnn : (0 : Int) ≤ st.indeg x := by
        rw [inv.indegEq x]
        positivity
      have hfst : (finishJob s st j).indeg x =
          st.indeg x - List.count x (adjOf s.deps j) :=
        processDeps_fst x (adjOf s.deps j) st.indeg
      have hmem : x ∈ (processDeps st.indeg (adjOf s.deps j)).2 := by
        rw [mem_processDeps]
        constructor
        · omega
        · omega
      exact hperm.mem_iff.mpr (List.mem_append.mpr (Or.inl hmem))
  · intro v hv p hp hpt
    rcases List.mem_append.mp (hperm.mem_iff.mp hv) with hnew | holdm
    · have h1 := hindeg1 v
      have h2 : (finishJob s st j).indeg v =
          st.indeg v - List.count v (adjOf s.deps j) :=
        processDeps_fst v (adjOf s.deps j) st.indeg
      have h3 := (mem_processDeps v (adjOf s.deps j) st.indeg).mp hnew
      have hz2 : pendIndeg s.deps (st.finished ++ [j]) v = 0 := by omega
      exact (pendIndeg_eq_zero (st.finished ++ [j]) v s.deps).mp hz2 p hp hpt
    · show p.1 ∈ st.finished ++ [j]
      exact List.mem_append.mpr (Or.inl (inv.predsDone v holdm p hp hpt))

theorem inv_init (s : Sched) (hwf : WellFormed s) : Inv s (initSt s) := by
  constructor
  · simp only [allIds, initSt, List.append_nil]
    exact nodup_seedReady s.deps s.jobs hwf.1
  · intro x hx
    simp only [allIds, initSt, List.append_nil] at hx
    exact ((mem_seedReady s.deps x s.jobs).mp hx).1
  · simp [allIds, initSt]
  · intro v
    rfl
  · intro x hx hz
    simp only [allIds, initSt, List.append_nil]
    rw [mem_seedReady]
    refine ⟨hx, ?_⟩
    simpa [initSt] using hz
  · intro v hv p hp hpt
    simp only [allIds, initSt, List.append_nil] at hv
    have hz := ((mem_seedReady s.deps v s.jobs).mp hv).2
    exact (pendIndeg_eq_zero [] v s.deps).mp hz p hp hpt

theorem inv_step (s : Sched) (st st1 : St) (hs : Step s st st1)
    (hwf : WellFormed s) (inv : Inv s st) : Inv s st1 := by
  cases hs with
  | start j rest h => exact inv_start s st j rest h inv
  | finish j h => exact inv_finish s st j h hwf inv

theorem inv_reach (s : Sched) (hwf : WellFormed s) (st : St)
    (h : Reach s st) : Inv s st := by
  induction h with
  | init => exact inv_init s hwf
  | step hr hs ih => exact inv_step _ _ _ hs hwf ih

end Pipeline

namespace Pipeline

theorem mem_allIds_of_started (st : St) (v : Int)
    (h : v ∈ st.inflight ∨ v ∈ st.finished) : v ∈ allIds st := by
  unfold allIds
  rcases h with h | h
  · exact List.mem_append.mpr (Or.inl (List.mem_append.mpr (Or.inr h)))
  · exact List.mem_append.mpr (Or.inr h)

/--
Claim C2: in every reachable state of a well-formed run, if the target v of a
dependency edge (u, v) has started executing (it is in flight or finished),
then its prerequisite u has already finished - a job is enqueued only when
its remaining-dependency count reaches zero, which happens only after every
prerequisite has completed, so v never starts before u finishes.
-/
theorem claim_C2 (s : Sched) (hwf : WellFormed s) (st : St) (hre : Reach s st)
    (u v : Int) (he : (u, v) ∈ s.deps)
    (hstarted : v ∈ st.inflight ∨ v ∈ st.finished) : u ∈ st.finished := by
  have inv := inv_reach s hwf st hre
  exact inv.predsDone v (mem_allIds_of_started st v hstarted) (u, v) he rfl

/--
Claim C2 witness: on the diamond input of JobId.cpp main, after the run
start 1, finish 1, start 2, job 2 is in flight along edge (1, 2), and the
theorem yields that job 1 is finished in that state.
-/
theorem claim_C2_witness :
    (1 : Int) ∈
      (startJob (finishJob diamond (startJob (initSt diamond) 1 []) 1)
        2 [3]).finished :=
  claim_C2 diamond (by decide)
    (startJob (finishJob diamond (startJob (initSt diamond) 1 []) 1) 2 [3])
    (Reach.step
      (Reach.step
        (Reach.step Reach.init (Step.start (initSt diamond) 1 [] (by decide)))
        (Step.finish (startJob (initSt diamond) 1 []) 1 (by decide)))
      (Step.start (finishJob diamond (startJob (initSt diamond) 1 []) 1)
        2 [3] (by decide)))
    1 2 (by decide) (Or.inl (by decide))

/--
Claim C10: in every reachable state of a well-formed run, every
remaining-dependency count equals the number of edges into that job whose
source has not finished - each edge contributes one increment at construction
and loses that contribution exactly when its source finishes - and is
therefore never negative.
-/
theorem claim_C10 (s : Sched) (hwf : WellFormed s) (st : St)
    (hre : Reach s st) (v : Int) :
    st.indeg v = (pendIndeg s.deps st.finished v : Int) ∧ 0 ≤ st.indeg v := by
  have inv := inv_reach s hwf st hre
  refine ⟨inv.indegEq v, ?_⟩
  rw [inv.indegEq v]
  positivity

/--
Claim C10 witness: the diamond input at the initial state, for job 4.
-/
theorem claim_C10_witness :
    (initSt diamond).indeg 4 =
      (pendIndeg diamond.deps (initSt diamond).finished 4 : Int) ∧
    0 ≤ (initSt diamond).indeg 4 :=
  claim_C10 diamond (by decide) (initSt diamond) Reach.init 4

end Pipeline

namespace Pipeline

/--
Claim C4: the finish-job critical section (JobId.cpp lines 134-142), when the
finished job's dependent list holds no duplicates (no duplicate edges out of
it), decrements the remaining-dependency count of exactly its direct
dependents by exactly one, leaves every other count unchanged, and appends to
the ready queue exactly those dependents whose count was 1 and so just
reached zero - each such dependent is enqueued exactly once, at the moment
its last prerequisite finishes.
-/
theorem claim_C4 (s : Sched) (st : St) (j : Int)
    (hnd : (adjOf s.deps j).Nodup) :
    (∀ v ∈ adjOf s.deps j, (finishJob s st j).indeg v = st.indeg v - 1) ∧
    (∀ v, v ∉ adjOf s.deps j → (finishJob s st j).indeg v = st.indeg v) ∧
    (∀ v, List.count v (finishJob s st j).ready =
      List.count v st.ready +
        (if v ∈ adjOf s.deps j ∧ st.indeg v = 1 then 1 else 0)) := by
  refine ⟨?_, ?_, ?_⟩
  · intro v hv
    have h1 : (finishJob s st j).indeg v =
        st.indeg v - List.count v (adjOf s.deps j) :=
      processDeps_fst v (adjOf s.deps j) st.indeg
    rw [h1, List.count_eq_one_of_mem hnd hv]
    norm_num
  · intro v hv
    have h1 : (finishJob s st j).indeg v =
        st.indeg v - List.count v (adjOf s.deps j) :=
      processDeps_fst v (adjOf s.deps j) st.indeg
    rw [h1, List.count_eq_zero_of_not_mem hv]
    norm_num
  · intro v
    show List.count v (st.ready ++ (processDeps st.indeg (adjOf s.deps j)).2) = _
    rw [List.count_append, processDeps_count]
    by_cases hv : v ∈ adjOf s.deps j
    · rw [List.count_eq_one_of_mem hnd hv]
      simp only [hv, true_and]
      split_ifs <;> omega
    · rw [List.count_eq_zero_of_not_mem hv]
      simp only [hv, false_and, if_false]
      split_ifs <;> omega

/--
Claim C4 witness: the diamond input, finishing job 1 from the initial state;
its dependents 2 and 3 are each decremented from 1 to 0 and enqueued, and
job 4 is untouched.
-/
theorem claim_C4_witness :
    (∀ v ∈ adjOf diamond.deps 1,
      (finishJob diamond (initSt diamond) 1).indeg v =
        (initSt diamond).indeg v - 1) ∧
    (∀ v, v ∉ adjOf diamond.deps 1 →
      (finishJob diamond (initSt diamond) 1).indeg v =
        (initSt diamond).indeg v) ∧
    (∀ v, List.count v (finishJob diamond (initSt diamond) 1).ready =
      List.count v (initSt diamond).ready +
        (if v ∈ adjOf diamond.deps 1 ∧ (initSt diamond).indeg v = 1
         then 1 else 0)) :=
  claim_C4 diamond (initSt diamond) 1 (by decide)

theorem stuck_of_empty_seed (s : Sched) (hseed : (initSt s).ready = []) :
    ∀ st, Reach s st → st = initSt s := by
  intro st h
  induction h with
  | init => rfl
  | step hr hs ih =>
      cases hs with
      | start j rest h =>
          rw [ih, hseed] at h
          cases h
      | finish j h =>
          rw [ih] at h
          simp [initSt] at h

/--
Claim C5 counterexample: on the cyclic input (jobs 1 and 2 with edges both
ways) and on the input whose edge source 2 is not a listed job, construction
does not fail - the constructor of JobId.cpp lines 74-92 performs no
validation and simply produces a state whose seeded ready queue is empty -
every reachable state is that initial state, so no job ever finishes while
the job list is non-empty (the blocking run never completes), and execute
still spawns its full worker pool (4 threads when hardware_concurrency
reports 0), contradicting both the construction-time error and the
never-starts-a-worker parts of the claim.
-/
theorem claim_C5_counterexample :
    (initSt cyc2).ready = [] ∧ cyc2.jobs.length = 2 ∧
    (∀ st, Reach cyc2 st → st.finished = []) ∧
    (initSt unk1).ready = [] ∧ unk1.jobs.length = 1 ∧
    (∀ st, Reach unk1 st → st.finished = []) ∧
    spawnedWorkers 0 = 4 := by
  refine ⟨by decide, rfl, ?_, by decide, rfl, ?_, rfl⟩
  · intro st h
    rw [stuck_of_empty_seed cyc2 (by decide) st h]
    rfl
  · intro st h
    rw [stuck_of_empty_seed unk1 (by decide) st h]
    rfl

/--
Claim C5 amended: construction performs no validation and cannot fail - a
cyclic dependency graph or an edge referencing an unlisted job id is accepted
silently - and execute always spawns a positive number of worker threads;
when the malformed input leaves the seeded ready queue empty, the scheduler
is permanently stuck in its initial state: no job is ever executed and the
blocking run never completes (a deadlock rather than a construction error).
-/
theorem claim_C5 (s : Sched) (st : St) (hseed : (initSt s).ready = [])
    (hre : Reach s st) (hw : Nat) :
    st = initSt s ∧ st.finished = [] ∧ 0 < spawnedWorkers hw := by
  have h := stuck_of_empty_seed s hseed st hre
  refine ⟨h, ?_, ?_⟩
  · rw [h]
    rfl
  · unfold spawnedWorkers
    split_ifs <;> omega

/--
Claim C5 amended, witness: the cyclic two-job input at its initial state,
with hardware concurrency 0.
-/
theorem claim_C5_witness :
    initSt cyc2 = initSt cyc2 ∧ (initSt cyc2).finished = [] ∧
    0 < spawnedWorkers 0 :=
  claim_C5 cyc2 (initSt cyc2) (by decide) Reach.init 0

end Pipeline

namespace Pipeline

theorem allIds_length (st : St) :
    (allIds st).length =
      st.ready.length + st.inflight.length + st.finished.length := by
  simp [allIds]
  omega

theorem lenBound (s : Sched) (st : St) (inv : Inv s st) :
    st.ready.length + st.inflight.length + st.finished.length ≤
      s.jobs.length := by
  have hsub : List.Subperm (allIds st) s.jobs :=
    inv.nodup.subperm (fun a ha => inv.sub a ha)
  have h := hsub.length_le
  rw [allIds_length] at h
  exact h

theorem finished_nodup (s : Sched) (st : St) (inv : Inv s st) :
    st.finished.Nodup := by
  have hnod : ((st.ready ++ st.inflight) ++ st.finished).Nodup := inv.nodup
  rw [List.nodup_append] at hnod
  exact hnod.2.1

theorem finished_subset (s : Sched) (st : St) (inv : Inv s st) :
    st.finished ⊆ s.jobs := by
  intro a ha
  exact inv.sub a (List.mem_append.mpr (Or.inr ha))

theorem finished_perm_of_complete (s : Sched) (st : St) (inv : Inv s st)
    (hlen : st.finished.length = s.jobs.length) :
    List.Perm st.finished s.jobs := by
  have hsp := (finished_nodup s st inv).subperm (finished_subset s st inv)
  exact hsp.perm_of_length_le (le_of_eq hlen.symm)

theorem unfinished_has_unfinished_pred (s : Sched) (st : St) (inv : Inv s st)
    (hready : st.ready = []) (hinfl : st.inflight = [])
    (u : Int) (hu : u ∈ s.jobs) (hne : u ∉ st.finished) :
    ∃ p ∈ s.deps, p.2 = u ∧ p.1 ∉ st.finished := by
  have hnm : u ∉ allIds st := by
    unfold allIds
    simp [hready, hinfl, hne]
  have hnz : st.indeg u ≠ 0 := fun hz => hnm (inv.zeroIn u hu hz)
  have hpz : pendIndeg s.deps st.finished u ≠ 0 := by
    intro hz
    apply hnz
    rw [inv.indegEq u, hz]
    rfl
  by_contra hall
  push_neg at hall
  exact hpz
    ((pendIndeg_eq_zero st.finished u s.deps).mpr
      (fun p hp hpt => hall p hp hpt))

theorem quiescent_complete (s : Sched) (hwf : WellFormed s)
    (hacyc : Acyclic s) (st : St) (inv : Inv s st)
    (hready : st.ready = []) (hinfl : st.inflight = []) :
    st.finished.length = s.jobs.length := by
  obtain ⟨rank, hrank⟩ := hacyc
  have key : ∀ n u, rank u = n → u ∈ s.jobs → u ∈ st.finished := by
    intro n
    induction n using Nat.strong_induction_on with
    | _ n ih =>
        intro u hru hu
        by_contra hne
        obtain ⟨p, hp, hpt, hpf⟩ :=
          unfinished_has_unfinished_pred s st inv hready hinfl u hu hne
        have hlt : rank p.1 < n := by
          have h := hrank p hp
          rw [hpt, hru] at h
          exact h
        exact hpf (ih (rank p.1) hlt p.1 rfl (hwf.2 p hp).1)
  have hjobsub : s.jobs ⊆ st.finished := fun a ha => key (rank a) a rfl ha
  have h1 := ((finished_nodup s st inv).subperm (finished_subset s st inv)).length_le
  have h2 := (hwf.1.subperm hjobsub).length_le
  omega

theorem drive (s : Sched) (hwf : WellFormed s) (hacyc : Acyclic s) :
    ∀ n (st : St), Reach s st →
      2 * s.jobs.length ≤ n + 2 * st.finished.length + st.inflight.length →
      ∃ st1, Reach s st1 ∧ st1.finished.length = s.jobs.length := by
  intro n
  induction n with
  | zero =>
      intro st hre hmeas
      have inv := inv_reach s hwf st hre
      have hlb := lenBound s st inv
      by_cases hc : st.finished.length = s.jobs.length
      · exact ⟨st, hre, hc⟩
      · exact absurd hmeas (by omega)
  | succ n ih =>
      intro st hre hmeas
      have inv := inv_reach s hwf st hre
      have hlb := lenBound s st inv
      by_cases hc : st.finished.length = s.jobs.length
      · exact ⟨st, hre, hc⟩
      · cases hr : st.ready with
        | cons j rest =>
            apply ih (startJob st j rest)
              (Reach.step hre (Step.start st j rest hr))
            show 2 * s.jobs.length ≤
              n + 2 * st.finished.length + (j :: st.inflight).length
            simp only [List.length_cons]
            omega
        | nil =>
            cases hi : st.inflight with
            | cons w wrest =>
                have hwin : w ∈ st.inflight := by
                  rw [hi]
                  exact List.mem_cons_self w wrest
                apply ih (finishJob s st w)
                  (Reach.step hre (Step.finish st w hwin))
                have hlen1 : (finishJob s st w).finished.length =
                    st.finished.length + 1 := by
                  simp [finishJob]
                have hlen2 : (finishJob s st w).inflight.length =
                    st.inflight.length - 1 := by
                  simp [finishJob, List.length_erase_of_mem hwin]
                have hpos : 1 ≤ st.inflight.length := by
                  rw [hi]
                  simp
                omega
            | nil =>
                exact absurd
                  (quiescent_complete s hwf hacyc st inv hr hi) hc

/--
Claim C3: for every well-formed acyclic input, a complete run exists - some
reachable state has as many finished jobs as there are jobs - and in every
reachable complete state each job has finished exactly once, the ready queue
and the in-flight set are empty, the total number of ready-queue pushes over
the run equals the number of jobs (one push per job, at seeding time or when
its last dependency completed), and the sum of the remaining-dependency
counts over all jobs is zero.
-/
theorem claim_C3 (s : Sched) (hwf : WellFormed s) (hacyc : Acyclic s) :
    (∃ st, Reach s st ∧ st.finished.length = s.jobs.length) ∧
    (∀ st, Reach s st → st.finished.length = s.jobs.length →
      (∀ j ∈ s.jobs, List.count j st.finished = 1) ∧
      st.pushes = s.jobs.length ∧
      (s.jobs.map st.indeg).sum = 0 ∧
      st.ready = [] ∧ st.inflight = []) := by
  constructor
  · apply drive s hwf hacyc (2 * s.jobs.length) (initSt s) Reach.init
    show 2 * s.jobs.length ≤
      2 * s.jobs.length + 2 * ([] : List Int).length + ([] : List Int).length
    simp
  · intro st hre hlen
    have inv := inv_reach s hwf st hre
    have hperm := finished_perm_of_complete s st inv hlen
    have hlb := lenBound s st inv
    have hready : st.ready = [] := by
      rw [← List.length_eq_zero]
      omega
    have hinfl : st.inflight = [] := by
      rw [← List.length_eq_zero]
      omega
    refine ⟨?_, ?_, ?_, hready, hinfl⟩
    · intro j hj
      rw [hperm.count_eq j]
      exact List.count_eq_one_of_mem hwf.1 hj
    · rw [inv.pushesEq, allIds_length]
      omega
    · apply List.sum_eq_zero
      intro x hx
      obtain ⟨v, hv, hvx⟩ := List.mem_map.mp hx
      rw [← hvx, inv.indegEq v]
      have hz : pendIndeg s.deps st.finished v = 0 := by
        rw [pendIndeg_eq_zero]
        intro p hp hpt
        exact hperm.symm.mem_iff.mp ((hwf.2 p hp).1)
      rw [hz]
      rfl

/--
Claim C3 witness: the diamond input of JobId.cpp main, well-formed and
acyclic (ranked by the id itself).
-/
theorem claim_C3_witness :
    (∃ st, Reach diamond st ∧
      st.finished.length = diamond.jobs.length) ∧
    (∀ st, Reach diamond st →
      st.finished.length = diamond.jobs.length →
      (∀ j ∈ diamond.jobs, List.count j st.finished = 1) ∧
      st.pushes = diamond.jobs.length ∧
      (diamond.jobs.map st.indeg).sum = 0 ∧
      st.ready = [] ∧ st.inflight = []) :=
  claim_C3 diamond (by decide) ⟨fun v => v.toNat, by decide⟩

end Pipeline
